import Mathlib

/-!
Verification of the toy payments engine's per-account ledger state machine.

The Rust sources are embedded shallowly:
* `src/client.rs` — the `Client` account state machine with its five
  transaction handlers. Monetary values (`rust_decimal::Decimal`) are exact
  decimals, all integer multiples of 10⁻²⁸; the code only ever adds,
  subtracts, compares and uses 0, and under those operations the decimals
  form an ordered additive group isomorphic to `ℤ` (the integer count of
  10⁻²⁸ units), so amounts are modelled as `ℤ`. The
  `HashMap<u32, BalanceChangeEntry>` is modelled as an association list
  whose keys are unique in every reachable state (insertion happens only
  after the uniqueness check fails to find the key).
* `src/main.rs` — the inline dispatcher loop (chunking, stable sort by
  client id, grouping, and the inlined per-kind handling); its
  `DecimalType` arithmetic is likewise modelled on `ℤ`.

A Rust handler `fn(&mut self, Transaction) -> Result<(), E>` is embedded as
a function `Client → Transaction → Client × Option E`: the returned `Client`
is the state after all mutations the handler performed, and the `Option`
carries the error, so "no mutation on failure" is a provable property rather
than an artifact of the embedding.
-/

inductive BalanceChangeEntryType where
  | Deposit
  | Withdrawal
deriving DecidableEq, Repr

inductive BalanceChangeEntryStatus where
  | Valid
  | ActiveDispute
  | ChargedBack
deriving DecidableEq, Repr

structure BalanceChangeEntry where
  ty : BalanceChangeEntryType
  amount : ℤ
  status : BalanceChangeEntryStatus
deriving DecidableEq, Repr

inductive TransactionType where
  | Deposit
  | Withdrawal
  | Dispute
  | Resolve
  | Chargeback
deriving DecidableEq, Repr

structure Transaction where
  ty : TransactionType
  client : ℕ
  tx : ℕ
  amount : Option ℤ
deriving DecidableEq, Repr

inductive TransactionProcessingError where
  | ReusedTransactionId
  | AmountNotSpecified
  | NoSufficientFunds
  | UnknownTransactionId
  | DoubleDispute
  | DisputeNotActive
  | DisputeOnWithdrawal
deriving DecidableEq, Repr

/-- The `HashMap<u32, BalanceChangeEntry>` of an account, as an association
list. All reachable states have pairwise distinct keys. -/
abbrev BalanceChanges := List (ℕ × BalanceChangeEntry)

/-- `HashMap::contains_key`. -/
def containsKey (m : BalanceChanges) (k : ℕ) : Bool :=
  m.any (fun p => p.1 = k)

/-- `HashMap::get` / `HashMap::get_mut` (the lookup part). -/
def getEntry (m : BalanceChanges) (k : ℕ) : Option BalanceChangeEntry :=
  (m.find? (fun p => p.1 = k)).map Prod.snd

/-- Writing through the `&mut BalanceChangeEntry` obtained from
`HashMap::get_mut`: the entry stored at key `k` is replaced by `e`.
On lists with unique keys this modifies exactly the one stored entry. -/
def setEntry (m : BalanceChanges) (k : ℕ) (e : BalanceChangeEntry) : BalanceChanges :=
  m.map (fun p => if p.1 = k then (p.1, e) else p)

/-- `HashMap::insert`; in the source it is reached only after
`contains_key` (or `get_mut ... is_some`) came back false, so the key is
always fresh. -/
def insertEntry (m : BalanceChanges) (k : ℕ) (e : BalanceChangeEntry) : BalanceChanges :=
  (k, e) :: m

/-- `Client` from `src/client.rs`: balances, frozen flag and the per-tx
audit map. `Client::default()` is all fields at their defaults. -/
structure Client where
  balance_changes : BalanceChanges := []
  available : ℤ := 0
  held : ℤ := 0
  is_frozen : Bool := false
deriving DecidableEq, Repr

/-- `Client::total`. -/
def Client.total (self : Client) : ℤ :=
  self.available + self.held

/-- `Client::validate_transaction_uniqueness`. -/
def Client.validate_transaction_uniqueness (self : Client) (transaction : Transaction) :
    Except TransactionProcessingError Unit :=
  if containsKey self.balance_changes transaction.tx then
    .error .ReusedTransactionId
  else
    .ok ()

/-- Free function `get_transaction_amount` from `src/client.rs`. -/
def get_transaction_amount (transaction : Transaction) :
    Except TransactionProcessingError ℤ :=
  match transaction.amount with
  | some a => .ok a
  | none => .error .AmountNotSpecified

/-- `Client::process_deposit`. -/
def Client.process_deposit (self : Client) (transaction : Transaction) :
    Client × Option TransactionProcessingError :=
  match self.validate_transaction_uniqueness transaction with
  | .error e => (self, some e)
  | .ok () =>
    match get_transaction_amount transaction with
    | .error e => (self, some e)
    | .ok amount =>
      ({ self with
          balance_changes := insertEntry self.balance_changes transaction.tx
            { ty := .Deposit, amount := amount, status := .Valid },
          available := self.available + amount }, none)

/-- `Client::process_withdrawal`. -/
def Client.process_withdrawal (self : Client) (transaction : Transaction) :
    Client × Option TransactionProcessingError :=
  match self.validate_transaction_uniqueness transaction with
  | .error e => (self, some e)
  | .ok () =>
    match get_transaction_amount transaction with
    | .error e => (self, some e)
    | .ok amount =>
      if self.available < amount then
        (self, some .NoSufficientFunds)
      else
        ({ self with
            balance_changes := insertEntry self.balance_changes transaction.tx
              { ty := .Withdrawal, amount := amount, status := .Valid },
            available := self.available - amount }, none)

/-- `Client::process_dispute`. -/
def Client.process_dispute (self : Client) (transaction : Transaction) :
    Client × Option TransactionProcessingError :=
  match getEntry self.balance_changes transaction.tx with
  | none => (self, some .UnknownTransactionId)
  | some balance_change =>
    if balance_change.status ≠ .Valid then
      (self, some .DoubleDispute)
    else
      let amount := balance_change.amount
      ({ self with
          balance_changes := setEntry self.balance_changes transaction.tx
            { balance_change with status := .ActiveDispute },
          available := self.available - amount,
          held := self.held + amount }, none)

/-- `Client::process_resolve`. -/
def Client.process_resolve (self : Client) (transaction : Transaction) :
    Client × Option TransactionProcessingError :=
  match getEntry self.balance_changes transaction.tx with
  | none => (self, some .UnknownTransactionId)
  | some balance_change =>
    if balance_change.status ≠ .ActiveDispute then
      (self, some .DisputeNotActive)
    else
      let amount := balance_change.amount
      ({ self with
          balance_changes := setEntry self.balance_changes transaction.tx
            { balance_change with status := .Valid },
          available := self.available + amount,
          held := self.held - amount }, none)

/-- `Client::process_chargeback`. -/
def Client.process_chargeback (self : Client) (transaction : Transaction) :
    Client × Option TransactionProcessingError :=
  match getEntry self.balance_changes transaction.tx with
  | none => (self, some .UnknownTransactionId)
  | some balance_change =>
    if balance_change.status ≠ .ActiveDispute then
      (self, some .DisputeNotActive)
    else
      let amount := balance_change.amount
      ({ self with
          balance_changes := setEntry self.balance_changes transaction.tx
            { balance_change with status := .ChargedBack },
          held := self.held - amount,
          is_frozen := true }, none)

/-- The `match transaction.ty` dispatch inside `Client::process_transaction`,
with the handler's result still visible. -/
def Client.process_result (self : Client) (transaction : Transaction) :
    Client × Option TransactionProcessingError :=
  match transaction.ty with
  | .Deposit => self.process_deposit transaction
  | .Withdrawal => self.process_withdrawal transaction
  | .Dispute => self.process_dispute transaction
  | .Resolve => self.process_resolve transaction
  | .Chargeback => self.process_chargeback transaction

/-- `Client::process_transaction`: dispatch, then ignore the error
(`if let Err(_err) = result {}`). -/
def Client.process_transaction (self : Client) (transaction : Transaction) : Client :=
  (self.process_result transaction).fst

/-- Folding a whole transaction stream into one account, starting from
`Client::default()`. -/
def Client.process_all (ts : List Transaction) : Client :=
  ts.foldl Client.process_transaction {}

/-! ## The dispatcher loop of `src/main.rs`

`main` owns a `ClientList = HashMap<u16, Client>` and processes the
transaction stream in chunks of 1000; each chunk is stably sorted by client
id, grouped into consecutive runs of equal client id, and each run is folded
into the (lazily created) client. The per-transaction handling is inlined in
the loop body, not delegated to `Client::process_transaction`. Note in
particular that in the `Deposit`/`Withdrawal` arms the code calls
`Option::replace` on the local `Option<&mut BalanceChangeEntry>` returned by
`get_mut`, which overwrites that local `Option` and never touches the map,
and reads a missing amount as `unwrap_or_default()` (zero). -/

/-- One inlined loop-body iteration of `main` on one client's state. -/
def mainStep (client : Client) (transaction : Transaction) : Client :=
  match transaction.ty with
  | .Deposit =>
    -- `get_mut(..).is_some()` → reused id, `continue`
    if containsKey client.balance_changes transaction.tx then client
    else
      let amount := transaction.amount.getD 0
      -- `balance_change.replace(&mut BalanceChangeEntry { .. })` only
      -- rebinds the local `Option`; the map is left untouched.
      { client with available := client.available + amount }
  | .Withdrawal =>
    if containsKey client.balance_changes transaction.tx then client
    else
      let amount := transaction.amount.getD 0
      if client.available ≥ amount then
        -- again `Option::replace`: no entry reaches the map
        { client with available := client.available - amount }
      else client
  | .Dispute =>
    match getEntry client.balance_changes transaction.tx with
    | none => client
    | some balance_change =>
      match balance_change.status with
      | .Valid =>
        { client with
            balance_changes := setEntry client.balance_changes transaction.tx
              { balance_change with status := .ActiveDispute },
            available := client.available - balance_change.amount,
            held := client.held + balance_change.amount }
      | .ActiveDispute => client
      | .ChargedBack => client
  | .Resolve =>
    match getEntry client.balance_changes transaction.tx with
    | none => client
    | some balance_change =>
      match balance_change.status with
      | .ActiveDispute =>
        { client with
            balance_changes := setEntry client.balance_changes transaction.tx
              { balance_change with status := .Valid },
            available := client.available + balance_change.amount,
            held := client.held - balance_change.amount }
      | .Valid => client
      | .ChargedBack => client
  | .Chargeback =>
    match getEntry client.balance_changes transaction.tx with
    | none => client
    | some balance_change =>
      match balance_change.status with
      | .Valid => client
      | .ChargedBack => client
      | .ActiveDispute =>
        { client with
            balance_changes := setEntry client.balance_changes transaction.tx
              { balance_change with status := .ChargedBack },
            held := client.held - balance_change.amount,
            is_frozen := true }

/-- The `ClientList = HashMap<u16, Client>` of `main`, as an association
list. -/
abbrev ClientList := List (ℕ × Client)

/-- `HashMap::get` on the client map. -/
def getClient (cs : ClientList) (id : ℕ) : Option Client :=
  (cs.find? (fun p => p.1 = id)).map Prod.snd

/-- `clients.entry(id).or_insert_with(Default::default)` followed by writing
the updated client back through the `&mut` reference. -/
def setClient (cs : ClientList) (id : ℕ) (c : Client) : ClientList :=
  if cs.any (fun p => p.1 = id) then
    cs.map (fun p => if p.1 = id then (p.1, c) else p)
  else
    cs ++ [(id, c)]

/-- Stable insertion keeping the list sorted by client id: an element is
placed after every element whose key is `≤` its own, the behaviour of
itertools' stable `sorted_by_key`. -/
def insertByClient (t : Transaction) : List Transaction → List Transaction
  | [] => [t]
  | u :: us =>
    if u.client ≤ t.client then u :: insertByClient t us
    else t :: u :: us

/-- `chunk.sorted_by_key(|x| x.client)` (stable). -/
def sortByClient (l : List Transaction) : List Transaction :=
  l.foldl (fun acc t => insertByClient t acc) []

/-- Helper for `groupByClient`: current run key, reversed current run,
remaining input. -/
def groupByClientGo (k : ℕ) (acc : List Transaction) :
    List Transaction → List (ℕ × List Transaction)
  | [] => [(k, acc.reverse)]
  | t :: ts =>
    if t.client = k then groupByClientGo k (t :: acc) ts
    else (k, acc.reverse) :: groupByClientGo t.client [t] ts

/-- itertools' `group_by(|x| x.client)`: consecutive runs of equal client id. -/
def groupByClient : List Transaction → List (ℕ × List Transaction)
  | [] => []
  | t :: ts => groupByClientGo t.client [t] ts

/-- Helper for `toChunksOf`: `budget` is the remaining capacity of the
current (reversed) chunk `acc`. -/
def toChunksGo (n : ℕ) : List Transaction → List Transaction → ℕ →
    List (List Transaction)
  | [], acc, _ => if acc.isEmpty then [] else [acc.reverse]
  | t :: ts, acc, 0 => acc.reverse :: toChunksGo n ts [t] (n - 1)
  | t :: ts, acc, budget + 1 => toChunksGo n ts (t :: acc) budget

/-- itertools' `chunks(n)`: consecutive chunks of at most `n` transactions. -/
def toChunksOf (n : ℕ) (l : List Transaction) : List (List Transaction) :=
  toChunksGo n l [] n

/-- The inner `for (client_id, transactions)` body of `main`. -/
def mainProcessGroup (cs : ClientList) (g : ℕ × List Transaction) : ClientList :=
  let client := (getClient cs g.1).getD {}
  setClient cs g.1 (g.2.foldl mainStep client)

/-- The per-chunk body of `main`: stable sort by client id, group, process
each group. -/
def mainProcessChunk (cs : ClientList) (chunk : List Transaction) : ClientList :=
  (groupByClient (sortByClient chunk)).foldl mainProcessGroup cs

/-- The whole dispatcher loop of `main`, applied to a transaction stream. -/
def mainRun (ts : List Transaction) : ClientList :=
  (toChunksOf 1000 ts).foldl mainProcessChunk []

/-- Modelled from the spec (the reference side of the refinement claim):
`route(transaction)` looks up or lazily creates the account for
`transaction.account_id` and calls the account's `process(transaction)`,
i.e. `Client.process_transaction` of `src/client.rs`. -/
def routeStep (cs : ClientList) (t : Transaction) : ClientList :=
  setClient cs t.client (((getClient cs t.client).getD {}).process_transaction t)

/-- Modelled from the spec: routing every transaction of the stream, in
order, through `routeStep`. -/
def routeRun (ts : List Transaction) : ClientList :=
  ts.foldl routeStep []

/-! ## Lemmas about the association-list map -/

@[simp]
theorem getEntry_nil (k : ℕ) : getEntry [] k = none := rfl

@[simp]
theorem getEntry_cons (k' : ℕ) (e : BalanceChangeEntry) (m : BalanceChanges) (k : ℕ) :
    getEntry ((k', e) :: m) k = if k' = k then some e else getEntry m k := by
  by_cases h : k' = k <;> simp [getEntry, List.find?, h]

@[simp]
theorem containsKey_nil (k : ℕ) : containsKey [] k = false := rfl

@[simp]
theorem containsKey_cons (k' : ℕ) (e : BalanceChangeEntry) (m : BalanceChanges) (k : ℕ) :
    containsKey ((k', e) :: m) k = (decide (k' = k) || containsKey m k) := by
  simp [containsKey]

theorem containsKey_eq_isSome_getEntry (m : BalanceChanges) (k : ℕ) :
    containsKey m k = (getEntry m k).isSome := by
  induction m with
  | nil => rfl
  | cons p m ih =>
    obtain ⟨k', e⟩ := p
    by_cases h : k' = k <;> simp [h, ih]

theorem not_mem_keys_of_containsKey_eq_false {m : BalanceChanges} {k : ℕ}
    (h : containsKey m k = false) : k ∉ m.map Prod.fst := by
  induction m with
  | nil => simp
  | cons p m ih =>
    obtain ⟨k', e⟩ := p
    simp only [containsKey_cons, Bool.or_eq_false_iff, decide_eq_false_iff_not] at h
    simp only [List.map_cons, List.mem_cons]
    rintro (rfl | hm)
    · exact h.1 rfl
    · exact ih h.2 hm

@[simp]
theorem setEntry_nil (k : ℕ) (e : BalanceChangeEntry) : setEntry [] k e = [] := rfl

@[simp]
theorem setEntry_cons (k' : ℕ) (e' : BalanceChangeEntry) (m : BalanceChanges)
    (k : ℕ) (e : BalanceChangeEntry) :
    setEntry ((k', e') :: m) k e =
      (if k' = k then (k', e) else (k', e')) :: setEntry m k e := by
  by_cases h : k' = k <;> simp [setEntry, h]

@[simp]
theorem keys_setEntry (m : BalanceChanges) (k : ℕ) (e : BalanceChangeEntry) :
    (setEntry m k e).map Prod.fst = m.map Prod.fst := by
  induction m with
  | nil => rfl
  | cons p m ih =>
    obtain ⟨k', e'⟩ := p
    by_cases h : k' = k <;> simp [h, ih]

theorem setEntry_of_not_mem {m : BalanceChanges} {k : ℕ} (e : BalanceChangeEntry)
    (h : k ∉ m.map Prod.fst) : setEntry m k e = m := by
  induction m with
  | nil => rfl
  | cons p m ih =>
    obtain ⟨k', e'⟩ := p
    simp only [List.map_cons, List.mem_cons, not_or] at h
    simp [Ne.symm h.1, ih h.2]

theorem getEntry_setEntry_ne {k k' : ℕ} (m : BalanceChanges) (e : BalanceChangeEntry)
    (h : k ≠ k') : getEntry (setEntry m k' e) k = getEntry m k := by
  induction m with
  | nil => rfl
  | cons p m ih =>
    obtain ⟨k₀, e₀⟩ := p
    by_cases h0 : k₀ = k'
    · subst h0
      simp [Ne.symm h, ih]
    · by_cases h1 : k₀ = k <;> simp [h0, h1, h, ih]

theorem getEntry_setEntry_self {m : BalanceChanges} {k : ℕ} {e : BalanceChangeEntry}
    (e' : BalanceChangeEntry) (h : getEntry m k = some e) :
    getEntry (setEntry m k e') k = some e' := by
  induction m with
  | nil => simp at h
  | cons p m ih =>
    obtain ⟨k₀, e₀⟩ := p
    by_cases h0 : k₀ = k
    · simp [h0]
    · simp only [getEntry_cons, h0, if_false] at h
      simp [h0, ih h]

theorem getEntry_mem {m : BalanceChanges} {k : ℕ} {e : BalanceChangeEntry}
    (h : getEntry m k = some e) : (k, e) ∈ m := by
  induction m with
  | nil => simp at h
  | cons p m ih =>
    obtain ⟨k₀, e₀⟩ := p
    by_cases h0 : k₀ = k
    · subst h0
      rw [getEntry_cons, if_pos rfl] at h
      injection h with h2
      subst h2
      exact List.mem_cons_self _ _
    · simp only [getEntry_cons, h0, if_false] at h
      exact List.mem_cons_of_mem _ (ih h)

theorem mem_setEntry {m : BalanceChanges} {k : ℕ} {e' : BalanceChangeEntry}
    {p : ℕ × BalanceChangeEntry} (h : p ∈ setEntry m k e') :
    p.2 = e' ∨ p ∈ m := by
  unfold setEntry at h
  obtain ⟨q, hq, hpq⟩ := List.mem_map.mp h
  by_cases h0 : q.1 = k
  · rw [if_pos h0] at hpq
    left
    rw [← hpq]
  · rw [if_neg h0] at hpq
    right
    rwa [← hpq]

/-- The dispute status stored for transaction `tx` in an account. -/
def statusOf (c : Client) (tx : ℕ) : Option BalanceChangeEntryStatus :=
  (getEntry c.balance_changes tx).map BalanceChangeEntry.status

/-! ## Per-handler facts: a failing handler returns the state it was given -/

theorem process_deposit_state_of_error {c : Client} {t : Transaction}
    {e : TransactionProcessingError} (h : (c.process_deposit t).2 = some e) :
    (c.process_deposit t).1 = c := by
  cases hv : c.validate_transaction_uniqueness t with
  | error e1 => simp [Client.process_deposit, hv]
  | ok u =>
    cases u
    cases ha : get_transaction_amount t with
    | error e2 => simp [Client.process_deposit, hv, ha]
    | ok a => simp [Client.process_deposit, hv, ha] at h

theorem process_withdrawal_state_of_error {c : Client} {t : Transaction}
    {e : TransactionProcessingError} (h : (c.process_withdrawal t).2 = some e) :
    (c.process_withdrawal t).1 = c := by
  cases hv : c.validate_transaction_uniqueness t with
  | error e1 => simp [Client.process_withdrawal, hv]
  | ok u =>
    cases u
    cases ha : get_transaction_amount t with
    | error e2 => simp [Client.process_withdrawal, hv, ha]
    | ok a =>
      by_cases hlt : c.available < a
      · simp [Client.process_withdrawal, hv, ha, hlt]
      · simp [Client.process_withdrawal, hv, ha, hlt] at h

theorem process_dispute_state_of_error {c : Client} {t : Transaction}
    {e : TransactionProcessingError} (h : (c.process_dispute t).2 = some e) :
    (c.process_dispute t).1 = c := by
  cases hg : getEntry c.balance_changes t.tx with
  | none => simp [Client.process_dispute, hg]
  | some bc =>
    by_cases hs : bc.status = .Valid
    · simp [Client.process_dispute, hg, hs] at h
    · simp [Client.process_dispute, hg, hs]

theorem process_resolve_state_of_error {c : Client} {t : Transaction}
    {e : TransactionProcessingError} (h : (c.process_resolve t).2 = some e) :
    (c.process_resolve t).1 = c := by
  cases hg : getEntry c.balance_changes t.tx with
  | none => simp [Client.process_resolve, hg]
  | some bc =>
    by_cases hs : bc.status = .ActiveDispute
    · simp [Client.process_resolve, hg, hs] at h
    · simp [Client.process_resolve, hg, hs]

theorem process_chargeback_state_of_error {c : Client} {t : Transaction}
    {e : TransactionProcessingError} (h : (c.process_chargeback t).2 = some e) :
    (c.process_chargeback t).1 = c := by
  cases hg : getEntry c.balance_changes t.tx with
  | none => simp [Client.process_chargeback, hg]
  | some bc =>
    by_cases hs : bc.status = .ActiveDispute
    · simp [Client.process_chargeback, hg, hs] at h
    · simp [Client.process_chargeback, hg, hs]

/-! ## Concrete scenario states used by witnesses -/

/-- Scenario B of §8 after its first two transactions:
`Deposit(tx=1, 5)`, `Withdrawal(tx=2, 3)`. -/
def scenarioBClient : Client :=
  Client.process_all
    [{ ty := .Deposit, client := 1, tx := 1, amount := some 5 },
     { ty := .Withdrawal, client := 1, tx := 2, amount := some 3 }]

/-- Scenario A of §8 after `Deposit(tx=1, 1)`, `Dispute(tx=1)`. -/
def scenarioADisputed : Client :=
  Client.process_all
    [{ ty := .Deposit, client := 1, tx := 1, amount := some 1 },
     { ty := .Dispute, client := 1, tx := 1, amount := none }]

/-- Scenario A of §8 after `Deposit(tx=1, 1)`, `Dispute(tx=1)`,
`Chargeback(tx=1)`. -/
def scenarioAChargedBack : Client :=
  Client.process_all
    [{ ty := .Deposit, client := 1, tx := 1, amount := some 1 },
     { ty := .Dispute, client := 1, tx := 1, amount := none },
     { ty := .Chargeback, client := 1, tx := 1, amount := none }]

/-! ## Claims -/

/-- C1: whenever the handler selected by `process_transaction` returns a
failure (any of the failure kinds), the whole account state — available,
held, frozen flag and the entire entry map — is exactly the state the
handler was given, and `process_transaction` hence leaves the account
unchanged: rejection is atomic with zero effect on state. -/
theorem process_result_failure_no_mutation (c : Client) (t : Transaction)
    (e : TransactionProcessingError) (h : (c.process_result t).2 = some e) :
    (c.process_result t).1 = c ∧ c.process_transaction t = c := by
  have h1 : (c.process_result t).1 = c := by
    cases ht : t.ty <;>
      simp only [Client.process_result, ht] at h ⊢
    · exact process_deposit_state_of_error h
    · exact process_withdrawal_state_of_error h
    · exact process_dispute_state_of_error h
    · exact process_resolve_state_of_error h
    · exact process_chargeback_state_of_error h
  exact ⟨h1, h1⟩

theorem process_result_failure_no_mutation_witness :
    (Client.process_result {} { ty := .Dispute, client := 0, tx := 1, amount := none }).2 =
      some .UnknownTransactionId ∧
    Client.process_transaction {} { ty := .Dispute, client := 0, tx := 1, amount := none } = {} :=
  ⟨by decide,
   (process_result_failure_no_mutation {}
      { ty := .Dispute, client := 0, tx := 1, amount := none }
      .UnknownTransactionId (by decide)).2⟩

/-- C2: on an account whose entry for `t.tx` has status `Valid`, a dispute
succeeds, marks the entry `ActiveDispute`, moves exactly `e.amount` from
`available` to `held` — with no condition on whether the entry's kind is
`Deposit` or `Withdrawal`, so disputing a withdrawal can drive `available`
negative (Scenario B is the witness below). -/
theorem process_dispute_valid_entry (c : Client) (t : Transaction)
    (e : BalanceChangeEntry) (h1 : getEntry c.balance_changes t.tx = some e)
    (h2 : e.status = .Valid) :
    c.process_dispute t =
      ({ c with
          balance_changes := setEntry c.balance_changes t.tx
            { e with status := .ActiveDispute },
          available := c.available - e.amount,
          held := c.held + e.amount }, none) := by
  simp [Client.process_dispute, h1, h2]

theorem process_dispute_valid_entry_witness :
    getEntry scenarioBClient.balance_changes 2 =
      some { ty := .Withdrawal, amount := 3, status := .Valid } ∧
    (scenarioBClient.process_dispute
        { ty := .Dispute, client := 1, tx := 2, amount := none }).1.available = -1 ∧
    (scenarioBClient.process_dispute
        { ty := .Dispute, client := 1, tx := 2, amount := none }).1.held = 3 ∧
    statusOf (scenarioBClient.process_dispute
        { ty := .Dispute, client := 1, tx := 2, amount := none }).1 2 =
      some .ActiveDispute := by
  have h := process_dispute_valid_entry scenarioBClient
    { ty := .Dispute, client := 1, tx := 2, amount := none }
    { ty := .Withdrawal, amount := 3, status := .Valid } (by decide) rfl
  refine ⟨by decide, ?_, ?_, ?_⟩ <;> rw [h] <;> decide

/-- C5: for a withdrawal whose `tx` is fresh and whose amount is present:
if `amount > available` it is rejected with `NoSufficientFunds` and mutates
nothing; otherwise it succeeds, inserts the entry
`{Withdrawal, amount, Valid}`, decreases `available` by exactly `amount`,
and the resulting `available` is `≥ 0`. -/
theorem process_withdrawal_spec (c : Client) (t : Transaction) (a : ℤ)
    (h1 : containsKey c.balance_changes t.tx = false) (h2 : t.amount = some a) :
    (c.available < a → c.process_withdrawal t = (c, some .NoSufficientFunds)) ∧
    (a ≤ c.available →
      c.process_withdrawal t =
        ({ c with
            balance_changes := insertEntry c.balance_changes t.tx
              { ty := .Withdrawal, amount := a, status := .Valid },
            available := c.available - a }, none) ∧
      0 ≤ c.available - a) := by
  constructor
  · intro hlt
    simp [Client.process_withdrawal, Client.validate_transaction_uniqueness, h1,
      get_transaction_amount, h2, hlt]
  · intro hle
    refine ⟨?_, sub_nonneg.mpr hle⟩
    simp [Client.process_withdrawal, Client.validate_transaction_uniqueness, h1,
      get_transaction_amount, h2, not_lt.mpr hle]

theorem process_withdrawal_spec_witness :
    containsKey scenarioBClient.balance_changes 3 = false ∧
    scenarioBClient.available < 10 ∧
    scenarioBClient.process_withdrawal
        { ty := .Withdrawal, client := 1, tx := 3, amount := some 10 } =
      (scenarioBClient, some .NoSufficientFunds) :=
  ⟨by decide, by decide,
   (process_withdrawal_spec scenarioBClient
      { ty := .Withdrawal, client := 1, tx := 3, amount := some 10 } 10
      (by decide) rfl).1 (by decide)⟩

/-- C7: for `Deposit` and `Withdrawal` the uniqueness check runs before the
amount-presence check, which (for `Withdrawal`) runs before the
sufficient-funds check, and the first failing check fixes the error with no
mutation — in particular a reused `tx` with an absent amount fails with
`ReusedTransactionId`, not `AmountNotSpecified` (the condition on `t.amount`
is absent from the first conjunct). -/
theorem validation_order (c : Client) (t : Transaction) :
    (containsKey c.balance_changes t.tx = true →
      c.process_deposit t = (c, some .ReusedTransactionId) ∧
      c.process_withdrawal t = (c, some .ReusedTransactionId)) ∧
    (containsKey c.balance_changes t.tx = false → t.amount = none →
      c.process_deposit t = (c, some .AmountNotSpecified) ∧
      c.process_withdrawal t = (c, some .AmountNotSpecified)) ∧
    (∀ a : ℤ, containsKey c.balance_changes t.tx = false → t.amount = some a →
      c.available < a →
      c.process_withdrawal t = (c, some .NoSufficientFunds)) := by
  refine ⟨fun hc => ⟨?_, ?_⟩, fun hc ha => ⟨?_, ?_⟩, fun a hc ha hlt => ?_⟩ <;>
    simp [Client.process_deposit, Client.process_withdrawal,
      Client.validate_transaction_uniqueness, get_transaction_amount, hc]
  · simp [*]
  · simp [*]
  · simp [*]

theorem validation_order_witness :
    containsKey scenarioBClient.balance_changes 1 = true ∧
    Transaction.amount { ty := .Deposit, client := 1, tx := 1, amount := none } = none ∧
    scenarioBClient.process_deposit
        { ty := .Deposit, client := 1, tx := 1, amount := none } =
      (scenarioBClient, some .ReusedTransactionId) :=
  ⟨by decide, rfl,
   ((validation_order scenarioBClient
      { ty := .Deposit, client := 1, tx := 1, amount := none }).1 (by decide)).1⟩

/-- C8: a chargeback on an entry in `ActiveDispute` decreases `held` by
exactly the entry's amount, freezes the account, marks the entry
`ChargedBack`, and changes nothing else: `available` is untouched, every
other entry is untouched, and the key list of the map is unchanged. -/
theorem process_chargeback_frame (c : Client) (t : Transaction)
    (e : BalanceChangeEntry) (h1 : getEntry c.balance_changes t.tx = some e)
    (h2 : e.status = .ActiveDispute) :
    c.process_chargeback t =
      ({ c with
          balance_changes := setEntry c.balance_changes t.tx
            { e with status := .ChargedBack },
          held := c.held - e.amount,
          is_frozen := true }, none) ∧
    (c.process_chargeback t).1.available = c.available ∧
    statusOf (c.process_chargeback t).1 t.tx = some .ChargedBack ∧
    (∀ k, k ≠ t.tx →
      getEntry (c.process_chargeback t).1.balance_changes k =
        getEntry c.balance_changes k) ∧
    ((c.process_chargeback t).1.balance_changes).map Prod.fst =
      c.balance_changes.map Prod.fst := by
  have hmain : c.process_chargeback t =
      ({ c with
          balance_changes := setEntry c.balance_changes t.tx
            { e with status := .ChargedBack },
          held := c.held - e.amount,
          is_frozen := true }, none) := by
    simp [Client.process_chargeback, h1, h2]
  refine ⟨hmain, ?_, ?_, ?_, ?_⟩
  · rw [hmain]
  · rw [hmain]
    dsimp only [statusOf]
    rw [getEntry_setEntry_self { e with status := .ChargedBack } h1]
    rfl
  · intro k hk
    rw [hmain]
    exact getEntry_setEntry_ne _ _ hk
  · rw [hmain]
    exact keys_setEntry _ _ _

theorem chargedback_status_preserved (c : Client) (tx : ℕ) (e : BalanceChangeEntry)
    (h1 : getEntry c.balance_changes tx = some e) (h2 : e.status = .ChargedBack)
    (t : Transaction) :
    statusOf (c.process_transaction t) tx = some .ChargedBack := by
  have hs0 : statusOf c tx = some .ChargedBack := by simp [statusOf, h1, h2]
  have hctx : containsKey c.balance_changes tx = true := by
    rw [containsKey_eq_isSome_getEntry, h1]
    rfl
  obtain ⟨ty, cl, ttx, amt⟩ := t
  cases ty with
  | Deposit =>
    cases hc : containsKey c.balance_changes ttx with
    | true =>
      simp [Client.process_transaction, Client.process_result, Client.process_deposit,
        Client.validate_transaction_uniqueness, hc, hs0]
    | false =>
      have hne : ttx ≠ tx := by
        intro hEq
        subst hEq
        rw [hctx] at hc
        exact Bool.noConfusion hc
      cases amt with
      | none =>
        simp [Client.process_transaction, Client.process_result, Client.process_deposit,
          Client.validate_transaction_uniqueness, get_transaction_amount, hc, hs0]
      | some a =>
        simp [Client.process_transaction, Client.process_result, Client.process_deposit,
          Client.validate_transaction_uniqueness, get_transaction_amount, hc,
          insertEntry, statusOf, hne, h1, h2]
  | Withdrawal =>
    cases hc : containsKey c.balance_changes ttx with
    | true =>
      simp [Client.process_transaction, Client.process_result, Client.process_withdrawal,
        Client.validate_transaction_uniqueness, hc, hs0]
    | false =>
      have hne : ttx ≠ tx := by
        intro hEq
        subst hEq
        rw [hctx] at hc
        exact Bool.noConfusion hc
      cases amt with
      | none =>
        simp [Client.process_transaction, Client.process_result, Client.process_withdrawal,
          Client.validate_transaction_uniqueness, get_transaction_amount, hc, hs0]
      | some a =>
        by_cases hlt : c.available < a
        · simp [Client.process_transaction, Client.process_result, Client.process_withdrawal,
            Client.validate_transaction_uniqueness, get_transaction_amount, hc, hlt, hs0]
        · simp [Client.process_transaction, Client.process_result, Client.process_withdrawal,
            Client.validate_transaction_uniqueness, get_transaction_amount, hc, hlt,
            insertEntry, statusOf, hne, h1, h2]
  | Dispute =>
    cases hg : getEntry c.balance_changes ttx with
    | none =>
      simp [Client.process_transaction, Client.process_result, Client.process_dispute,
        hg, hs0]
    | some bc =>
      by_cases hbs : bc.status = .Valid
      · have hne : ttx ≠ tx := by
          intro hEq
          subst hEq
          rw [h1] at hg
          injection hg with hbe
          rw [← hbe, h2] at hbs
          exact BalanceChangeEntryStatus.noConfusion hbs
        simp [Client.process_transaction, Client.process_result, Client.process_dispute,
          hg, hbs, statusOf, getEntry_setEntry_ne _ _ (Ne.symm hne), h1, h2]
      · simp [Client.process_transaction, Client.process_result, Client.process_dispute,
          hg, hbs, hs0]
  | Resolve =>
    cases hg : getEntry c.balance_changes ttx with
    | none =>
      simp [Client.process_transaction, Client.process_result, Client.process_resolve,
        hg, hs0]
    | some bc =>
      by_cases hbs : bc.status = .ActiveDispute
      · have hne : ttx ≠ tx := by
          intro hEq
          subst hEq
          rw [h1] at hg
          injection hg with hbe
          rw [← hbe, h2] at hbs
          exact BalanceChangeEntryStatus.noConfusion hbs
        simp [Client.process_transaction, Client.process_result, Client.process_resolve,
          hg, hbs, statusOf, getEntry_setEntry_ne _ _ (Ne.symm hne), h1, h2]
      · simp [Client.process_transaction, Client.process_result, Client.process_resolve,
          hg, hbs, hs0]
  | Chargeback =>
    cases hg : getEntry c.balance_changes ttx with
    | none =>
      simp [Client.process_transaction, Client.process_result, Client.process_chargeback,
        hg, hs0]
    | some bc =>
      by_cases hbs : bc.status = .ActiveDispute
      · have hne : ttx ≠ tx := by
          intro hEq
          subst hEq
          rw [h1] at hg
          injection hg with hbe
          rw [← hbe, h2] at hbs
          exact BalanceChangeEntryStatus.noConfusion hbs
        simp [Client.process_transaction, Client.process_result, Client.process_chargeback,
          hg, hbs, statusOf, getEntry_setEntry_ne _ _ (Ne.symm hne), h1, h2]
      · simp [Client.process_transaction, Client.process_result, Client.process_chargeback,
          hg, hbs, hs0]

/-- C6: `ChargedBack` is terminal. On an account whose entry for `tx` is
`ChargedBack`, a dispute naming `tx` fails with `DoubleDispute`, a resolve
or chargeback naming `tx` fails with `DisputeNotActive` (all three leaving
the state unchanged), and no transaction whatsoever ever changes that
entry's status again; a dispute on an entry already in `ActiveDispute`
likewise fails with `DoubleDispute`. -/
theorem chargedback_terminal (c : Client) (tx : ℕ) (e : BalanceChangeEntry)
    (h1 : getEntry c.balance_changes tx = some e) :
    (e.status = .ChargedBack →
      (∀ t : Transaction, t.tx = tx →
        c.process_dispute t = (c, some .DoubleDispute) ∧
        c.process_resolve t = (c, some .DisputeNotActive) ∧
        c.process_chargeback t = (c, some .DisputeNotActive)) ∧
      (∀ t : Transaction,
        statusOf (c.process_transaction t) tx = some .ChargedBack)) ∧
    (e.status = .ActiveDispute →
      ∀ t : Transaction, t.tx = tx →
        c.process_dispute t = (c, some .DoubleDispute)) := by
  refine ⟨fun h2 => ⟨fun t htx => ?_, fun t => chargedback_status_preserved c tx e h1 h2 t⟩,
    fun h2 t htx => ?_⟩
  · rw [← htx] at h1
    refine ⟨?_, ?_, ?_⟩ <;>
      simp [Client.process_dispute, Client.process_resolve, Client.process_chargeback,
        h1, h2]
  · rw [← htx] at h1
    simp [Client.process_dispute, h1, h2]

theorem chargedback_terminal_witness :
    statusOf scenarioAChargedBack 1 = some .ChargedBack ∧
    scenarioAChargedBack.process_resolve
        { ty := .Resolve, client := 1, tx := 1, amount := none } =
      (scenarioAChargedBack, some .DisputeNotActive) ∧
    scenarioAChargedBack.process_dispute
        { ty := .Dispute, client := 1, tx := 1, amount := none } =
      (scenarioAChargedBack, some .DoubleDispute) ∧
    statusOf (scenarioAChargedBack.process_transaction
        { ty := .Deposit, client := 1, tx := 2, amount := some 7 }) 1 =
      some .ChargedBack ∧
    scenarioADisputed.process_dispute
        { ty := .Dispute, client := 1, tx := 1, amount := none } =
      (scenarioADisputed, some .DoubleDispute) := by
  have hA := chargedback_terminal scenarioAChargedBack 1
    { ty := .Deposit, amount := 1, status := .ChargedBack } (by decide)
  have hD := chargedback_terminal scenarioADisputed 1
    { ty := .Deposit, amount := 1, status := .ActiveDispute } (by decide)
  refine ⟨by decide, ?_, ?_, ?_, ?_⟩
  · exact ((hA.1 rfl).1 { ty := .Resolve, client := 1, tx := 1, amount := none } rfl).2.1
  · exact ((hA.1 rfl).1 { ty := .Dispute, client := 1, tx := 1, amount := none } rfl).1
  · exact (hA.1 rfl).2 { ty := .Deposit, client := 1, tx := 2, amount := some 7 }
  · exact hD.2 rfl { ty := .Dispute, client := 1, tx := 1, amount := none } rfl

theorem process_deposit_is_frozen (c : Client) (t : Transaction) :
    (c.process_deposit t).1.is_frozen = c.is_frozen := by
  cases hv : c.validate_transaction_uniqueness t with
  | error e1 => simp [Client.process_deposit, hv]
  | ok u =>
    cases u
    cases ha : get_transaction_amount t with
    | error e2 => simp [Client.process_deposit, hv, ha]
    | ok a => simp [Client.process_deposit, hv, ha]

theorem process_withdrawal_is_frozen (c : Client) (t : Transaction) :
    (c.process_withdrawal t).1.is_frozen = c.is_frozen := by
  cases hv : c.validate_transaction_uniqueness t with
  | error e1 => simp [Client.process_withdrawal, hv]
  | ok u =>
    cases u
    cases ha : get_transaction_amount t with
    | error e2 => simp [Client.process_withdrawal, hv, ha]
    | ok a =>
      by_cases hlt : c.available < a <;> simp [Client.process_withdrawal, hv, ha, hlt]

theorem process_dispute_is_frozen (c : Client) (t : Transaction) :
    (c.process_dispute t).1.is_frozen = c.is_frozen := by
  cases hg : getEntry c.balance_changes t.tx with
  | none => simp [Client.process_dispute, hg]
  | some bc =>
    by_cases hs : bc.status = .Valid <;> simp [Client.process_dispute, hg, hs]

theorem process_resolve_is_frozen (c : Client) (t : Transaction) :
    (c.process_resolve t).1.is_frozen = c.is_frozen := by
  cases hg : getEntry c.balance_changes t.tx with
  | none => simp [Client.process_resolve, hg]
  | some bc =>
    by_cases hs : bc.status = .ActiveDispute <;> simp [Client.process_resolve, hg, hs]

theorem process_chargeback_is_frozen (c : Client) (t : Transaction) :
    (c.process_chargeback t).1.is_frozen = c.is_frozen ∨
    (c.process_chargeback t).1.is_frozen = true := by
  cases hg : getEntry c.balance_changes t.tx with
  | none => left; simp [Client.process_chargeback, hg]
  | some bc =>
    by_cases hs : bc.status = .ActiveDispute
    · right; simp [Client.process_chargeback, hg, hs]
    · left; simp [Client.process_chargeback, hg, hs]

/-- C9: the frozen flag is monotonic — once `is_frozen` is `true`,
processing any transaction of any kind leaves it `true` — and a frozen
account is not blocked: a deposit with a fresh `tx` and a present amount
still succeeds, and a withdrawal additionally satisfying the funds check
still succeeds. -/
theorem frozen_monotone_and_nonblocking (c : Client) (t : Transaction)
    (h : c.is_frozen = true) :
    (c.process_transaction t).is_frozen = true ∧
    (∀ t' : Transaction, ∀ a : ℤ,
      containsKey c.balance_changes t'.tx = false → t'.amount = some a →
      (c.process_deposit t').2 = none ∧
      (a ≤ c.available → (c.process_withdrawal t').2 = none)) := by
  constructor
  · unfold Client.process_transaction Client.process_result
    cases t.ty
    · rw [process_deposit_is_frozen, h]
    · rw [process_withdrawal_is_frozen, h]
    · rw [process_dispute_is_frozen, h]
    · rw [process_resolve_is_frozen, h]
    · rcases process_chargeback_is_frozen c t with h5 | h5
      · rw [h5, h]
      · rw [h5]
  · intro t' a hc ha
    constructor
    · simp [Client.process_deposit, Client.validate_transaction_uniqueness, hc,
        get_transaction_amount, ha]
    · intro hle
      simp [Client.process_withdrawal, Client.validate_transaction_uniqueness, hc,
        get_transaction_amount, ha, not_lt.mpr hle]

theorem frozen_monotone_and_nonblocking_witness :
    scenarioAChargedBack.is_frozen = true ∧
    (scenarioAChargedBack.process_transaction
        { ty := .Dispute, client := 1, tx := 1, amount := none }).is_frozen = true ∧
    (scenarioAChargedBack.process_deposit
        { ty := .Deposit, client := 1, tx := 2, amount := some 4 }).2 = none ∧
    (scenarioAChargedBack.process_withdrawal
        { ty := .Withdrawal, client := 1, tx := 3, amount := some 0 }).2 = none := by
  have h := frozen_monotone_and_nonblocking scenarioAChargedBack
    { ty := .Dispute, client := 1, tx := 1, amount := none } (by decide)
  refine ⟨by decide, h.1, ?_, ?_⟩
  · exact (h.2 { ty := .Deposit, client := 1, tx := 2, amount := some 4 } 4
      (by decide) rfl).1
  · exact (h.2 { ty := .Withdrawal, client := 1, tx := 3, amount := some 0 } 0
      (by decide) rfl).2 (by decide)

theorem process_chargeback_frame_witness :
    getEntry scenarioADisputed.balance_changes 1 =
      some { ty := .Deposit, amount := 1, status := .ActiveDispute } ∧
    scenarioADisputed.process_chargeback
        { ty := .Chargeback, client := 1, tx := 1, amount := none } =
      ({ scenarioADisputed with
          balance_changes := setEntry scenarioADisputed.balance_changes 1
            { ty := .Deposit, amount := 1, status := .ChargedBack },
          held := scenarioADisputed.held - 1,
          is_frozen := true }, none) :=
  ⟨by decide,
   (process_chargeback_frame scenarioADisputed
      { ty := .Chargeback, client := 1, tx := 1, amount := none }
      { ty := .Deposit, amount := 1, status := .ActiveDispute }
      (by decide) rfl).1⟩

/-! ## The held-balance invariant -/

/-- Sum of the amounts of the entries currently under active dispute. -/
def heldSum : BalanceChanges → ℤ
  | [] => 0
  | (_, e) :: m => (if e.status = .ActiveDispute then e.amount else 0) + heldSum m

@[simp]
theorem heldSum_nil : heldSum [] = 0 := rfl

@[simp]
theorem heldSum_cons (k : ℕ) (e : BalanceChangeEntry) (m : BalanceChanges) :
    heldSum ((k, e) :: m) =
      (if e.status = .ActiveDispute then e.amount else 0) + heldSum m := rfl

theorem heldSum_setEntry {m : BalanceChanges} {k : ℕ} {e : BalanceChangeEntry}
    (hnd : (m.map Prod.fst).Nodup) (h : getEntry m k = some e)
    (e' : BalanceChangeEntry) :
    heldSum (setEntry m k e') =
      heldSum m - (if e.status = .ActiveDispute then e.amount else 0)
        + (if e'.status = .ActiveDispute then e'.amount else 0) := by
  induction m with
  | nil => simp at h
  | cons p m ih =>
    obtain ⟨k₀, e₀⟩ := p
    rw [List.map_cons, List.nodup_cons] at hnd
    by_cases h0 : k₀ = k
    · subst h0
      rw [getEntry_cons, if_pos rfl] at h
      injection h with he
      subst he
      rw [setEntry_cons, if_pos rfl, setEntry_of_not_mem e' hnd.1]
      simp only [heldSum_cons]
      ring
    · rw [getEntry_cons, if_neg h0] at h
      rw [setEntry_cons, if_neg h0]
      simp only [heldSum_cons, ih hnd.2 h]
      ring

/-- The inductive invariant for C10: unique keys and `held` equal to the sum
of the actively disputed amounts. -/
def ClientInv (c : Client) : Prop :=
  (c.balance_changes.map Prod.fst).Nodup ∧ c.held = heldSum c.balance_changes

theorem clientInv_process_transaction {c : Client} (h : ClientInv c)
    (t : Transaction) : ClientInv (c.process_transaction t) := by
  obtain ⟨hnd, hheld⟩ := h
  obtain ⟨ty, cl, ttx, amt⟩ := t
  cases ty with
  | Deposit =>
    cases hc : containsKey c.balance_changes ttx with
    | true =>
      simpa [Client.process_transaction, Client.process_result, Client.process_deposit,
        Client.validate_transaction_uniqueness, hc] using And.intro hnd hheld
    | false =>
      cases amt with
      | none =>
        simpa [Client.process_transaction, Client.process_result, Client.process_deposit,
          Client.validate_transaction_uniqueness, get_transaction_amount, hc]
          using And.intro hnd hheld
      | some a =>
        refine ⟨?_, ?_⟩ <;>
          simp [Client.process_transaction, Client.process_result, Client.process_deposit,
            Client.validate_transaction_uniqueness, get_transaction_amount, hc,
            insertEntry, ClientInv]
        · exact ⟨fun x hx =>
              not_mem_keys_of_containsKey_eq_false hc (List.mem_map_of_mem Prod.fst hx), hnd⟩
        · exact hheld
  | Withdrawal =>
    cases hc : containsKey c.balance_changes ttx with
    | true =>
      simpa [Client.process_transaction, Client.process_result, Client.process_withdrawal,
        Client.validate_transaction_uniqueness, hc] using And.intro hnd hheld
    | false =>
      cases amt with
      | none =>
        simpa [Client.process_transaction, Client.process_result, Client.process_withdrawal,
          Client.validate_transaction_uniqueness, get_transaction_amount, hc]
          using And.intro hnd hheld
      | some a =>
        by_cases hlt : c.available < a
        · simpa [Client.process_transaction, Client.process_result, Client.process_withdrawal,
            Client.validate_transaction_uniqueness, get_transaction_amount, hc, hlt]
            using And.intro hnd hheld
        · refine ⟨?_, ?_⟩ <;>
            simp [Client.process_transaction, Client.process_result, Client.process_withdrawal,
              Client.validate_transaction_uniqueness, get_transaction_amount, hc, hlt,
              insertEntry, ClientInv]
          · exact ⟨fun x hx =>
                not_mem_keys_of_containsKey_eq_false hc (List.mem_map_of_mem Prod.fst hx), hnd⟩
          · exact hheld
  | Dispute =>
    cases hg : getEntry c.balance_changes ttx with
    | none =>
      simpa [Client.process_transaction, Client.process_result, Client.process_dispute, hg]
        using And.intro hnd hheld
    | some bc =>
      by_cases hbs : bc.status = .Valid
      · refine ⟨?_, ?_⟩ <;>
          simp [Client.process_transaction, Client.process_result, Client.process_dispute,
            hg, hbs, ClientInv]
        · exact hnd
        · rw [heldSum_setEntry hnd hg { bc with status := .ActiveDispute }]
          simp [hbs, hheld]
      · simpa [Client.process_transaction, Client.process_result, Client.process_dispute,
          hg, hbs] using And.intro hnd hheld
  | Resolve =>
    cases hg : getEntry c.balance_changes ttx with
    | none =>
      simpa [Client.process_transaction, Client.process_result, Client.process_resolve, hg]
        using And.intro hnd hheld
    | some bc =>
      by_cases hbs : bc.status = .ActiveDispute
      · refine ⟨?_, ?_⟩ <;>
          simp [Client.process_transaction, Client.process_result, Client.process_resolve,
            hg, hbs, ClientInv]
        · exact hnd
        · rw [heldSum_setEntry hnd hg { bc with status := .Valid }]
          simp [hbs, hheld]
      · simpa [Client.process_transaction, Client.process_result, Client.process_resolve,
          hg, hbs] using And.intro hnd hheld
  | Chargeback =>
    cases hg : getEntry c.balance_changes ttx with
    | none =>
      simpa [Client.process_transaction, Client.process_result, Client.process_chargeback, hg]
        using And.intro hnd hheld
    | some bc =>
      by_cases hbs : bc.status = .ActiveDispute
      · refine ⟨?_, ?_⟩ <;>
          simp [Client.process_transaction, Client.process_result, Client.process_chargeback,
            hg, hbs, ClientInv]
        · exact hnd
        · rw [heldSum_setEntry hnd hg { bc with status := .ChargedBack }]
          simp [hbs, hheld]
      · simpa [Client.process_transaction, Client.process_result, Client.process_chargeback,
          hg, hbs] using And.intro hnd hheld

theorem clientInv_foldl : ∀ (ts : List Transaction) (c : Client), ClientInv c →
    ClientInv (ts.foldl Client.process_transaction c)
  | [], _, hc => hc
  | t :: ts, c, hc => by
    simp only [List.foldl_cons]
    exact clientInv_foldl ts _ (clientInv_process_transaction hc t)

/-- C10: in every account state reachable from `Client::default()` by
processing any sequence of transactions, `held` equals the sum of
`entry.amount` over exactly the entries whose status is `ActiveDispute`. -/
theorem held_eq_heldSum_reachable (ts : List Transaction) :
    (Client.process_all ts).held = heldSum (Client.process_all ts).balance_changes :=
  (clientInv_foldl ts {} ⟨List.nodup_nil, rfl⟩).2

/-! ## Non-negativity of stored amounts (C4) -/

theorem entries_nonneg_step {c : Client}
    (h : ∀ p ∈ c.balance_changes, 0 ≤ p.2.amount) {t : Transaction}
    (ht : 0 ≤ t.amount.getD 0) :
    ∀ p ∈ (c.process_transaction t).balance_changes, 0 ≤ p.2.amount := by
  obtain ⟨ty, cl, ttx, amt⟩ := t
  cases ty with
  | Deposit =>
    cases hc : containsKey c.balance_changes ttx with
    | true =>
      simpa [Client.process_transaction, Client.process_result, Client.process_deposit,
        Client.validate_transaction_uniqueness, hc] using h
    | false =>
      cases amt with
      | none =>
        simpa [Client.process_transaction, Client.process_result, Client.process_deposit,
          Client.validate_transaction_uniqueness, get_transaction_amount, hc] using h
      | some a =>
        intro p hp
        simp only [Client.process_transaction, Client.process_result, Client.process_deposit,
          Client.validate_transaction_uniqueness, get_transaction_amount, hc,
          Bool.false_eq_true, if_false, insertEntry] at hp
        rcases List.mem_cons.mp hp with rfl | hmem
        · simpa using ht
        · exact h p hmem
  | Withdrawal =>
    cases hc : containsKey c.balance_changes ttx with
    | true =>
      simpa [Client.process_transaction, Client.process_result, Client.process_withdrawal,
        Client.validate_transaction_uniqueness, hc] using h
    | false =>
      cases amt with
      | none =>
        simpa [Client.process_transaction, Client.process_result, Client.process_withdrawal,
          Client.validate_transaction_uniqueness, get_transaction_amount, hc] using h
      | some a =>
        by_cases hlt : c.available < a
        · simpa [Client.process_transaction, Client.process_result, Client.process_withdrawal,
            Client.validate_transaction_uniqueness, get_transaction_amount, hc, hlt] using h
        · intro p hp
          simp only [Client.process_transaction, Client.process_result,
            Client.process_withdrawal, Client.validate_transaction_uniqueness,
            get_transaction_amount, hc, hlt, Bool.false_eq_true, if_false, if_neg hlt,
            insertEntry] at hp
          rcases List.mem_cons.mp hp with rfl | hmem
          · simpa using ht
          · exact h p hmem
  | Dispute =>
    cases hg : getEntry c.balance_changes ttx with
    | none =>
      simpa [Client.process_transaction, Client.process_result, Client.process_dispute, hg]
        using h
    | some bc =>
      by_cases hbs : bc.status = .Valid
      · intro p hp
        simp only [Client.process_transaction, Client.process_result, Client.process_dispute,
          hg, hbs, ne_eq, not_true_eq_false, if_false] at hp
        rcases mem_setEntry hp with he | hmem
        · rw [he]
          exact h _ (getEntry_mem hg)
        · exact h p hmem
      · simpa [Client.process_transaction, Client.process_result, Client.process_dispute,
          hg, hbs] using h
  | Resolve =>
    cases hg : getEntry c.balance_changes ttx with
    | none =>
      simpa [Client.process_transaction, Client.process_result, Client.process_resolve, hg]
        using h
    | some bc =>
      by_cases hbs : bc.status = .ActiveDispute
      · intro p hp
        simp only [Client.process_transaction, Client.process_result, Client.process_resolve,
          hg, hbs, ne_eq, not_true_eq_false, if_false] at hp
        rcases mem_setEntry hp with he | hmem
        · rw [he]
          exact h _ (getEntry_mem hg)
        · exact h p hmem
      · simpa [Client.process_transaction, Client.process_result, Client.process_resolve,
          hg, hbs] using h
  | Chargeback =>
    cases hg : getEntry c.balance_changes ttx with
    | none =>
      simpa [Client.process_transaction, Client.process_result, Client.process_chargeback, hg]
        using h
    | some bc =>
      by_cases hbs : bc.status = .ActiveDispute
      · intro p hp
        simp only [Client.process_transaction, Client.process_result,
          Client.process_chargeback, hg, hbs, ne_eq, not_true_eq_false, if_false] at hp
        rcases mem_setEntry hp with he | hmem
        · rw [he]
          exact h _ (getEntry_mem hg)
        · exact h p hmem
      · simpa [Client.process_transaction, Client.process_result, Client.process_chargeback,
          hg, hbs] using h

theorem entries_nonneg_aux : ∀ (ts : List Transaction) (c : Client),
    (∀ p ∈ c.balance_changes, 0 ≤ p.2.amount) →
    (∀ t ∈ ts, 0 ≤ t.amount.getD 0) →
    ∀ p ∈ (ts.foldl Client.process_transaction c).balance_changes, 0 ≤ p.2.amount
  | [], _, hc, _ => hc
  | t :: ts, c, hc, hts => by
    simp only [List.foldl_cons]
    exact entries_nonneg_aux ts _
      (entries_nonneg_step hc (hts t (List.mem_cons_self t ts)))
      (fun t' ht' => hts t' (List.mem_cons_of_mem _ ht'))

/-- C4 counterexample: the claim as stated is false — the handlers never
check the sign of an amount, so a deposit carrying a negative amount stores
a `BalanceChangeEntry` with a negative amount in a reachable state. -/
theorem entry_amount_negative_counterexample :
    getEntry (Client.process_all
        [{ ty := .Deposit, client := 0, tx := 1, amount := some (-1) }]).balance_changes 1 =
      some { ty := .Deposit, amount := -1, status := .Valid } ∧
    ({ ty := .Deposit, amount := -1, status := .Valid } : BalanceChangeEntry).amount < 0 := by
  decide

/-- C4 (amended): in every account state reachable from the initial state by
a sequence of transactions **whose present amounts are all non-negative**,
every `BalanceChangeEntry` stored in the entry map has a non-negative
amount. -/
theorem entries_nonneg_of_nonneg_amounts (ts : List Transaction)
    (h : ∀ t ∈ ts, 0 ≤ t.amount.getD 0) :
    ∀ p ∈ (Client.process_all ts).balance_changes, 0 ≤ p.2.amount :=
  entries_nonneg_aux ts {} (by simp) h

theorem entries_nonneg_of_nonneg_amounts_witness :
    ((2 : ℕ), ({ ty := .Withdrawal, amount := 3, status := .Valid } : BalanceChangeEntry)) ∈
      (Client.process_all
        [{ ty := .Deposit, client := 1, tx := 1, amount := some 5 },
         { ty := .Withdrawal, client := 1, tx := 2, amount := some 3 }]).balance_changes ∧
    (0 : ℤ) ≤ (((2 : ℕ),
      ({ ty := .Withdrawal, amount := 3, status := .Valid } : BalanceChangeEntry))).2.amount :=
  ⟨by decide,
   entries_nonneg_of_nonneg_amounts
     [{ ty := .Deposit, client := 1, tx := 1, amount := some 5 },
      { ty := .Withdrawal, client := 1, tx := 2, amount := some 3 }]
     (by decide) _ (by decide)⟩

/-- C3 (recording the divergence): the dispatcher loop of `main` is **not**
equivalent to routing each transaction to its account's
`process_transaction`. Already on the one-element stream
`[Deposit(client=1, tx=1, amount=1)]` the loop leaves the account's entry
map empty (its `Option::replace` call never inserts into the map) while
routing through `Client::process_transaction` records the entry, so the
final per-account states differ. -/
theorem main_loop_diverges_from_routing :
    mainRun [{ ty := .Deposit, client := 1, tx := 1, amount := some 1 }] =
      [(1, { available := 1 })] ∧
    routeRun [{ ty := .Deposit, client := 1, tx := 1, amount := some 1 }] =
      [(1, { balance_changes := [(1, { ty := .Deposit, amount := 1, status := .Valid })],
             available := 1 })] ∧
    mainRun [{ ty := .Deposit, client := 1, tx := 1, amount := some 1 }] ≠
      routeRun [{ ty := .Deposit, client := 1, tx := 1, amount := some 1 }] := by
  decide
